import Mathlib

/-!
Verification development for the trend / mean-reversion scoring module
(`utils.py` of the Trending_and_Mean_Reverting_Score repository).

The module consists of two pure functions, `trend_score` and `mean_rev_score`.
We embed them shallowly: the Python floats become real numbers, a possibly-NaN
input entry becomes an `Option ℝ` (with `none` standing for a NaN marker), and
a Python run that raises an exception becomes an `Except PyError` value.
-/

/-- Python's built-in `round` to zero digits (IEEE "round half to even", a.k.a.
banker's rounding) composed with `int(...)`: the nearest integer to `v`, with an
exact `.5` tie resolved to the even neighbour.  This is the rounding performed by
`int(round(y, 0))` on line 51 and `int(round(y))` on line 91 of `utils.py`. -/
noncomputable def pyround (v : ℝ) : ℤ :=
  if v - ⌊v⌋ < 1/2 then ⌊v⌋
  else if 1/2 < v - ⌊v⌋ then ⌊v⌋ + 1
  else if Even ⌊v⌋ then ⌊v⌋ else ⌊v⌋ + 1

/-- Modelled from the spec: rounding to the nearest integer with "ties round half
away from zero" (spec §3, "Score").  Used only to compare the spec's claimed
rounding rule against the one the code actually performs. -/
noncomputable def roundHalfAwayFromZero (v : ℝ) : ℤ :=
  if 0 ≤ v then ⌊v + 1/2⌋ else -⌊-v + 1/2⌋

/-- The failures a run of the two Python functions can surface, plus the
`DegenerateInputError` that the design document calls for.  `zeroDivision` is the
host `ZeroDivisionError`; `nanToInt` is the `ValueError` raised by `int(...)` on
a NaN produced by numpy's `0.0/0.0`. -/
inductive PyError where
  | zeroDivision
  | nanToInt
  | degenerateInput
deriving DecidableEq

/-- Line 43 / line 86: `x = [v for v in x if not np.isnan(v)]` — drop the NaN
markers, keeping the remaining values in their original relative order. -/
def filterNaN (x : List (Option ℝ)) : List ℝ := x.filterMap id

/-- Line 45: `x_m = sum(x)/float(n)` (value mean). -/
noncomputable def x_m (x : List ℝ) : ℝ :=
  (∑ i ∈ Finset.range x.length, x.getD i 0) / x.length

/-- Line 46: `t_m = (1+n)/2.0` (position mean; positions are `1..n`). -/
noncomputable def t_m (x : List ℝ) : ℝ := (1 + x.length) / 2

/-- Line 47: `numr = sum([(x[i]-x_m)*(i+1-t_m) for i in range(n)])`. -/
noncomputable def numr (x : List ℝ) : ℝ :=
  ∑ i ∈ Finset.range x.length, (x.getD i 0 - x_m x) * ((i : ℝ) + 1 - t_m x)

/-- Line 48: `sum([(x[i]-x_m)**2 for i in range(n)])`. -/
noncomputable def sxx (x : List ℝ) : ℝ :=
  ∑ i ∈ Finset.range x.length, (x.getD i 0 - x_m x) ^ 2

/-- Line 49: `sum([(i+1-t_m)**2 for i in range(n)])`. -/
noncomputable def stt (x : List ℝ) : ℝ :=
  ∑ i ∈ Finset.range x.length, ((i : ℝ) + 1 - t_m x) ^ 2

/-- Lines 48-49: `deno = np.sqrt(sxx * stt)`. -/
noncomputable def deno (x : List ℝ) : ℝ := Real.sqrt (sxx x * stt x)

/-- Line 50: `rho = numr/deno` (Pearson correlation between values and positions). -/
noncomputable def rho (x : List ℝ) : ℝ := numr x / deno x

/-- Line 51, the real number being rounded: `100 * np.sign(rho) * abs(rho)**alpha`. -/
noncomputable def trendValue (x : List ℝ) (alpha : ℝ) : ℝ :=
  100 * Real.sign (rho x) * |rho x| ^ alpha

/-- `trend_score` on an already-NaN-filtered list.  Mirrors lines 44-52 of
`utils.py`, including where a run raises:
* `n = 0` — line 45 divides by `float(0)`: `ZeroDivisionError`;
* `deno = 0` (constant values, or `n = 1`) — numpy evaluates `0.0/0.0` to NaN
  with a warning, and line 51's `int(...)` then raises `ValueError`;
* `rho = 0` with `alpha < 0` — `abs(rho)**alpha` is `0.0 ** negative`:
  `ZeroDivisionError`. -/
noncomputable def trendCore (x : List ℝ) (alpha : ℝ) : Except PyError ℤ :=
  if x.length = 0 then .error .zeroDivision
  else if deno x = 0 then .error .nanToInt
  else if numr x = 0 ∧ alpha < 0 then .error .zeroDivision
  else .ok (pyround (trendValue x alpha))

/-- Lines 43-52: `trend_score(x, alpha=3.0)`. -/
noncomputable def trend_score (x : List (Option ℝ)) (alpha : ℝ := 3) : Except PyError ℤ :=
  trendCore (filterNaN x) alpha

/-- Line 88: `qv = sum([(x[i]-x[i-1])**2 for i in range(1,n)])` (sum of squared
consecutive first differences). -/
noncomputable def qv (x : List ℝ) : ℝ :=
  ∑ i ∈ Finset.Ico 1 x.length, (x.getD i 0 - x.getD (i-1) 0) ^ 2

/-- Line 90: `x_s = sum([(x[i]-x_m)**2 for i in range(n)]) / (n-1)`
(Bessel-corrected sample variance). -/
noncomputable def x_s (x : List ℝ) : ℝ := sxx x / ((x.length : ℝ) - 1)

/-- Line 91, the real number being rounded: `100 * 2**(-beta*x_s/qv)`. -/
noncomputable def meanRevValue (x : List ℝ) (beta : ℝ) : ℝ :=
  100 * (2 : ℝ) ^ (-beta * x_s x / qv x)

/-- `mean_rev_score` on an already-NaN-filtered list.  Mirrors lines 87-92 of
`utils.py`, including where a run raises `ZeroDivisionError`:
* `n = 0` — line 89 divides by `float(0)`;
* `n = 1` — line 90 divides by `n - 1 = 0`;
* `qv = 0` (constant values) — line 91 divides by zero. -/
noncomputable def meanRevCore (x : List ℝ) (beta : ℝ) : Except PyError ℤ :=
  if x.length = 0 then .error .zeroDivision
  else if x.length = 1 then .error .zeroDivision
  else if qv x = 0 then .error .zeroDivision
  else .ok (pyround (meanRevValue x beta))

/-- Lines 86-92: `mean_rev_score(x, beta=15.0)`. -/
noncomputable def mean_rev_score (x : List (Option ℝ)) (beta : ℝ := 15) : Except PyError ℤ :=
  meanRevCore (filterNaN x) beta

/-- The arithmetic (linear) series `a, a+d, a+2d, ...` of length `n`; strictly
increasing when `0 < d`, strictly decreasing when `d < 0`. -/
noncomputable def linSeries (a d : ℝ) (n : ℕ) : List ℝ :=
  (List.range n).map (fun i : ℕ => a + d * (i : ℝ))

/-! ### Basic properties of the rounding function -/

theorem pyround_intCast (k : ℤ) : pyround (k : ℝ) = k := by
  unfold pyround
  rw [Int.floor_intCast, if_pos (by norm_num)]

theorem floor_le_pyround (v : ℝ) : ⌊v⌋ ≤ pyround v := by
  unfold pyround
  split_ifs <;> omega

theorem pyround_le_floor_add_one (v : ℝ) : pyround v ≤ ⌊v⌋ + 1 := by
  unfold pyround
  split_ifs <;> omega

theorem pyround_eq_of_lt_of_lt {v : ℝ} {k : ℤ} (h1 : (k : ℝ) - 1/2 < v)
    (h2 : v < (k : ℝ) + 1/2) : pyround v = k := by
  rcases le_or_lt (k : ℝ) v with hk | hk
  · have hfl : ⌊v⌋ = k := Int.floor_eq_iff.mpr ⟨hk, by linarith⟩
    unfold pyround
    rw [hfl, if_pos (by linarith)]
  · have hfl : ⌊v⌋ = k - 1 := by
      apply Int.floor_eq_iff.mpr
      constructor
      · push_cast; linarith
      · push_cast; linarith
    unfold pyround
    rw [hfl, if_neg (by push_cast; linarith), if_pos (by push_cast; linarith)]
    omega

theorem le_pyround {v : ℝ} {k : ℤ} (h : (k : ℝ) ≤ v) : k ≤ pyround v :=
  le_trans (Int.le_floor.mpr h) (floor_le_pyround v)

theorem pyround_le {v : ℝ} {k : ℤ} (h : v ≤ (k : ℝ)) : pyround v ≤ k := by
  have hfk : ⌊v⌋ ≤ k := by
    have := Int.floor_le_floor h
    rwa [Int.floor_intCast] at this
  rcases eq_or_lt_of_le hfk with heq | hlt
  · have hv : v - ⌊v⌋ ≤ 0 := by
      rw [heq]; linarith
    unfold pyround
    rw [if_pos (by linarith)]
    omega
  · have : pyround v ≤ ⌊v⌋ + 1 := pyround_le_floor_add_one v
    omega

theorem pyround_neg (v : ℝ) : pyround (-v) = -pyround v := by
  rcases eq_or_ne (v - ⌊v⌋) 0 with hz | hz
  · have hv : v = (⌊v⌋ : ℝ) := by linarith
    rw [hv, ← Int.cast_neg, pyround_intCast, pyround_intCast]
  · have h0 : 0 ≤ v - ⌊v⌋ := by linarith [Int.floor_le v]
    have h0' : 0 < v - ⌊v⌋ := lt_of_le_of_ne h0 (Ne.symm hz)
    have h1 : v - ⌊v⌋ < 1 := by linarith [Int.lt_floor_add_one v]
    have hfl : ⌊-v⌋ = -⌊v⌋ - 1 := by
      apply Int.floor_eq_iff.mpr
      constructor
      · push_cast; linarith
      · push_cast; linarith
    have hcast : ((-⌊v⌋ - 1 : ℤ) : ℝ) = -(⌊v⌋ : ℝ) - 1 := by push_cast; ring
    unfold pyround
    rw [hfl, hcast]
    split_ifs <;>
      first
        | omega
        | linarith
        | (simp only [Int.even_iff] at *; omega)

theorem pyround_mono {v w : ℝ} (h : v ≤ w) : pyround v ≤ pyround w := by
  have hf : ⌊v⌋ ≤ ⌊w⌋ := Int.floor_le_floor h
  rcases eq_or_lt_of_le hf with heq | hlt
  · have hfr : v - ⌊v⌋ ≤ w - ⌊w⌋ := by
      rw [← heq]; linarith
    unfold pyround
    rw [← heq]
    split_ifs <;> first | omega | linarith
  · calc pyround v ≤ ⌊v⌋ + 1 := pyround_le_floor_add_one v
    _ ≤ ⌊w⌋ := by omega
    _ ≤ pyround w := floor_le_pyround w

theorem abs_sub_pyround_le (v : ℝ) : |v - pyround v| ≤ 1/2 := by
  have h0 : 0 ≤ v - ⌊v⌋ := by linarith [Int.floor_le v]
  have h1 : v - ⌊v⌋ < 1 := by linarith [Int.lt_floor_add_one v]
  unfold pyround
  split_ifs <;> rw [abs_le] <;> constructor <;> push_cast <;> linarith

/-! ### Branch-reduction helpers for the two score functions -/

theorem trendCore_error_of_deno_eq_zero {x : List ℝ} (alpha : ℝ) (hn : x.length ≠ 0)
    (h : deno x = 0) : trendCore x alpha = .error .nanToInt := by
  unfold trendCore
  rw [if_neg hn, if_pos h]

theorem trendCore_ok {x : List ℝ} {alpha : ℝ} (hn : x.length ≠ 0) (hd : deno x ≠ 0)
    (hna : ¬(numr x = 0 ∧ alpha < 0)) :
    trendCore x alpha = .ok (pyround (trendValue x alpha)) := by
  unfold trendCore
  rw [if_neg hn, if_neg hd, if_neg hna]

theorem meanRevCore_ok {x : List ℝ} (beta : ℝ) (hn0 : x.length ≠ 0) (hn1 : x.length ≠ 1)
    (hq : qv x ≠ 0) : meanRevCore x beta = .ok (pyround (meanRevValue x beta)) := by
  unfold meanRevCore
  rw [if_neg hn0, if_neg hn1, if_neg hq]

theorem filterNaN_map_some (l : List ℝ) : filterNaN (l.map some) = l := by
  simp [filterNaN]

theorem sxx_nonneg (x : List ℝ) : 0 ≤ sxx x :=
  Finset.sum_nonneg fun _ _ => sq_nonneg _

theorem stt_nonneg (x : List ℝ) : 0 ≤ stt x :=
  Finset.sum_nonneg fun _ _ => sq_nonneg _

theorem qv_nonneg (x : List ℝ) : 0 ≤ qv x :=
  Finset.sum_nonneg fun _ _ => sq_nonneg _

theorem deno_nonneg (x : List ℝ) : 0 ≤ deno x := Real.sqrt_nonneg _

theorem pyround_tie_even {v : ℝ} (h : |v - (pyround v : ℝ)| = 1/2) : Even (pyround v) := by
  have h0 : 0 ≤ v - ⌊v⌋ := by linarith [Int.floor_le v]
  have h1 : v - ⌊v⌋ < 1 := by linarith [Int.lt_floor_add_one v]
  unfold pyround at *
  split_ifs at * with hc1 hc2 hc3
  · rw [abs_of_nonneg h0] at h
    linarith
  · rw [abs_of_nonpos (by push_cast; linarith)] at h
    push_cast at h
    linarith
  · exact hc3
  · have htie : v - ⌊v⌋ = 1/2 := by linarith
    rw [Int.even_add_one]
    exact hc3

/-! ### C4: NaN filtering and compaction -/

/-- C4: Both functions first drop all NaN entries (order-preserving compaction,
`filterNaN`); consequently each function applied to `x` returns exactly what it
returns on the NaN-free compaction of `x`. -/
theorem score_eq_score_of_compaction (x : List (Option ℝ)) (alpha beta : ℝ) :
    trend_score x alpha = trend_score ((filterNaN x).map some) alpha ∧
    mean_rev_score x beta = mean_rev_score ((filterNaN x).map some) beta := by
  unfold trend_score mean_rev_score
  rw [filterNaN_map_some]
  exact ⟨rfl, rfl⟩

/-! ### C2: behaviour on an all-identical (zero-variance) series -/

/-- C2: evaluating the code on the all-identical series `[5, 5, 5]`.  `trend_score`
fails with the `ValueError` raised by `int(...)` on numpy's NaN (`0.0/0.0`), and
`mean_rev_score` fails with the host `ZeroDivisionError` (`qv = 0`); neither
signals the `DegenerateInputError` that the design document requires. -/
theorem const_input_raises_host_errors :
    trend_score [some 5, some 5, some 5] 3 = .error .nanToInt ∧
    mean_rev_score [some 5, some 5, some 5] 15 = .error .zeroDivision ∧
    PyError.nanToInt ≠ PyError.degenerateInput ∧
    PyError.zeroDivision ≠ PyError.degenerateInput := by
  have hfil : filterNaN [some 5, some 5, some 5] = [5, 5, 5] := by
    simp [filterNaN]
  have hxm : x_m [5, 5, 5] = 5 := by
    norm_num [x_m, Finset.sum_range_succ, List.getD]
  have hsxx : sxx [5, 5, 5] = 0 := by
    norm_num [sxx, hxm, Finset.sum_range_succ, List.getD]
  have hdeno : deno [5, 5, 5] = 0 := by
    rw [deno, hsxx, zero_mul, Real.sqrt_zero]
  have hqv : qv [5, 5, 5] = 0 := by
    norm_num [qv, Finset.sum_Ico_eq_sum_range, Finset.sum_range_succ, List.getD]
  refine ⟨?_, ?_, by decide, by decide⟩
  · unfold trend_score
    rw [hfil]
    exact trendCore_error_of_deno_eq_zero 3 (by norm_num) hdeno
  · unfold mean_rev_score
    rw [hfil]
    unfold meanRevCore
    rw [if_neg (by norm_num), if_neg (by norm_num), if_pos hqv]

/-! ### C1: the scores stay in their documented ranges -/

/-- Cauchy-Schwarz: whenever the denominator is non-zero, the Pearson
correlation computed by the code lies in `[-1, 1]`. -/
theorem abs_rho_le_one {x : List ℝ} (hd : deno x ≠ 0) : |rho x| ≤ 1 := by
  have hprod : 0 ≤ sxx x * stt x := mul_nonneg (sxx_nonneg x) (stt_nonneg x)
  have hdpos : 0 < deno x := lt_of_le_of_ne (deno_nonneg x) (Ne.symm hd)
  have hcs : numr x ^ 2 ≤ sxx x * stt x := by
    have := Finset.sum_mul_sq_le_sq_mul_sq (Finset.range x.length)
      (fun i => x.getD i 0 - x_m x) (fun i => (i : ℝ) + 1 - t_m x)
    simpa [numr, sxx, stt] using this
  rw [rho, abs_div, abs_of_nonneg (deno_nonneg x), div_le_one hdpos, deno]
  rw [show |numr x| = Real.sqrt (numr x ^ 2) by rw [Real.sqrt_sq_eq_abs]]
  exact Real.sqrt_le_sqrt hcs

/-- C1: whenever a call succeeds, `trend_score` (with a nonnegative sharpening
exponent, which includes the documented `alpha = 3` and `alpha = 1`) returns an
integer in `[-100, 100]`, and `mean_rev_score` (with a nonnegative decay rate,
which includes the documented `beta = 15`) returns an integer in `[0, 100]`. -/
theorem scores_within_documented_ranges (x : List (Option ℝ)) (alpha beta : ℝ)
    (ha : 0 ≤ alpha) (hb : 0 ≤ beta) :
    (∀ z : ℤ, trend_score x alpha = .ok z → -100 ≤ z ∧ z ≤ 100) ∧
    (∀ z : ℤ, mean_rev_score x beta = .ok z → 0 ≤ z ∧ z ≤ 100) := by
  constructor
  · intro z hz
    unfold trend_score trendCore at hz
    split_ifs at hz with h1 h2 h3
    simp only [Except.ok.injEq] at hz
    subst hz
    set y := filterNaN x with hy
    have hm0 : 0 ≤ |rho y| := abs_nonneg _
    have hm1 : |rho y| ≤ 1 := abs_rho_le_one h2
    have hpow0 : 0 ≤ |rho y| ^ alpha := Real.rpow_nonneg hm0 alpha
    have hpow1 : |rho y| ^ alpha ≤ 1 := Real.rpow_le_one hm0 hm1 ha
    have hsign : -1 ≤ Real.sign (rho y) ∧ Real.sign (rho y) ≤ 1 := by
      rcases Real.sign_apply_eq (rho y) with h | h | h <;> rw [h] <;> norm_num
    have hub : trendValue y alpha ≤ 100 := by
      unfold trendValue
      nlinarith [hsign.1, hsign.2]
    have hlb : -100 ≤ trendValue y alpha := by
      unfold trendValue
      nlinarith [hsign.1, hsign.2]
    constructor
    · exact le_pyround (by exact_mod_cast hlb)
    · exact pyround_le (by exact_mod_cast hub)
  · intro z hz
    unfold mean_rev_score meanRevCore at hz
    split_ifs at hz with h1 h2 h3
    simp only [Except.ok.injEq] at hz
    subst hz
    set y := filterNaN x with hy
    have hlen : 2 ≤ y.length := by omega
    have hqvpos : 0 < qv y := lt_of_le_of_ne (qv_nonneg y) (Ne.symm h3)
    have hxs : 0 ≤ x_s y := by
      apply div_nonneg (sxx_nonneg y)
      have : (2 : ℝ) ≤ (y.length : ℝ) := by exact_mod_cast hlen
      linarith
    have hexp : -beta * x_s y / qv y ≤ 0 := by
      apply div_nonpos_of_nonpos_of_nonneg _ (le_of_lt hqvpos)
      nlinarith
    have hvpos : 0 < meanRevValue y beta := by
      unfold meanRevValue
      have := Real.rpow_pos_of_pos (show (0:ℝ) < 2 by norm_num) (-beta * x_s y / qv y)
      linarith
    have hvle : meanRevValue y beta ≤ 100 := by
      unfold meanRevValue
      have := Real.rpow_le_one_of_one_le_of_nonpos (show (1:ℝ) ≤ 2 by norm_num) hexp
      linarith
    constructor
    · exact le_pyround (by exact_mod_cast le_of_lt hvpos)
    · exact pyround_le (by exact_mod_cast hvle)

/-- Evaluation of `trend_score` on the two-element series `[0, 1]`. -/
theorem trend_score_01 : trend_score [some 0, some 1] 3 = .ok 100 := by
  have hfil : filterNaN [some 0, some 1] = [0, 1] := by simp [filterNaN]
  have hxm : x_m [0, 1] = 1/2 := by
    norm_num [x_m, Finset.sum_range_succ, List.getD]
  have hnumr : numr [0, 1] = 1/2 := by
    norm_num [numr, hxm, t_m, Finset.sum_range_succ, List.getD]
  have hsxx : sxx [0, 1] = 1/2 := by
    norm_num [sxx, hxm, Finset.sum_range_succ, List.getD]
  have hstt : stt [0, 1] = 1/2 := by
    norm_num [stt, t_m, Finset.sum_range_succ, List.getD]
  have hdeno : deno [0, 1] = 1/2 := by
    rw [deno, hsxx, hstt, Real.sqrt_mul_self (by norm_num : (0:ℝ) ≤ 1/2)]
  have hrho : rho [0, 1] = 1 := by
    rw [rho, hnumr, hdeno]
    norm_num
  have hval : trendValue [0, 1] 3 = 100 := by
    rw [trendValue, hrho, Real.sign_one, abs_one, Real.one_rpow]
    norm_num
  unfold trend_score
  rw [hfil, trendCore_ok (by norm_num) (by rw [hdeno]; norm_num)
    (fun h => absurd h.2 (by norm_num)), hval]
  rw [show (100:ℝ) = ((100:ℤ):ℝ) by norm_num, pyround_intCast]

/-- Evaluation of `mean_rev_score` on the two-element series `[0, 1]`. -/
theorem mean_rev_score_01 : mean_rev_score [some 0, some 1] 15 = .ok 1 := by
  have hfil : filterNaN [some 0, some 1] = [0, 1] := by simp [filterNaN]
  have hxm : x_m [0, 1] = 1/2 := by
    norm_num [x_m, Finset.sum_range_succ, List.getD]
  have hsxx : sxx [0, 1] = 1/2 := by
    norm_num [sxx, hxm, Finset.sum_range_succ, List.getD]
  have hqv : qv [0, 1] = 1 := by
    norm_num [qv, Finset.sum_Ico_eq_sum_range, Finset.sum_range_succ, List.getD]
  have hxs : x_s [0, 1] = 1/2 := by
    rw [x_s, hsxx]
    norm_num
  have ht0 : (0:ℝ) < (2:ℝ) ^ ((15:ℝ)/2) := Real.rpow_pos_of_pos (by norm_num) _
  have ht2 : ((2:ℝ) ^ ((15:ℝ)/2)) ^ (2:ℕ) = 32768 := by
    rw [← Real.rpow_natCast ((2:ℝ) ^ ((15:ℝ)/2)) 2, ← Real.rpow_mul (by norm_num)]
    rw [show (15:ℝ)/2 * (2:ℕ) = ((15:ℕ):ℝ) by push_cast; ring, Real.rpow_natCast]
    norm_num
  have htlb : (200:ℝ)/3 < (2:ℝ) ^ ((15:ℝ)/2) := by
    apply lt_of_pow_lt_pow_left₀ 2 (le_of_lt ht0)
    rw [ht2]
    norm_num
  have htub : (2:ℝ) ^ ((15:ℝ)/2) < 200 := by
    apply lt_of_pow_lt_pow_left₀ 2 (by norm_num)
    rw [ht2]
    norm_num
  have hval : meanRevValue [0, 1] 15 = 100 * ((2:ℝ) ^ ((15:ℝ)/2))⁻¹ := by
    rw [meanRevValue, hxs, hqv]
    rw [show -(15:ℝ) * (1/2) / 1 = -((15:ℝ)/2) by norm_num]
    rw [Real.rpow_neg (by norm_num)]
  have hround : pyround (100 * ((2:ℝ) ^ ((15:ℝ)/2))⁻¹) = 1 := by
    rw [show (100:ℝ) * ((2:ℝ) ^ ((15:ℝ)/2))⁻¹ = 100 / ((2:ℝ) ^ ((15:ℝ)/2)) from
      (div_eq_mul_inv 100 _).symm]
    apply pyround_eq_of_lt_of_lt
    · push_cast
      rw [lt_div_iff₀ ht0]
      linarith
    · push_cast
      rw [div_lt_iff₀ ht0]
      linarith
  unfold mean_rev_score
  rw [hfil, meanRevCore_ok 15 (by norm_num) (by norm_num) (by rw [hqv]; norm_num), hval,
    hround]

/-- Witness for C1 at the concrete input `[0, 1]` with the default tunables:
the trend score `100` lies in `[-100, 100]` and the mean-reversion score `1`
lies in `[0, 100]`. -/
theorem scores_within_documented_ranges_witness :
    (-100 ≤ (100:ℤ) ∧ (100:ℤ) ≤ 100) ∧ (0 ≤ (1:ℤ) ∧ (1:ℤ) ≤ 100) :=
  ⟨(scores_within_documented_ranges [some 0, some 1] 3 15 (by norm_num)
      (by norm_num)).1 100 trend_score_01,
   (scores_within_documented_ranges [some 0, some 1] 3 15 (by norm_num)
      (by norm_num)).2 1 mean_rev_score_01⟩

/-! ### C3: perfectly linear series score exactly 100 / -100 -/

theorem sum_range_cast_real (n : ℕ) :
    (∑ i ∈ Finset.range n, (i:ℝ)) * 2 = (n:ℝ) * ((n:ℝ) - 1) := by
  rcases n with _ | m
  · simp
  · have h := Finset.sum_range_id_mul_two (m+1)
    have h3 : ((((∑ i ∈ Finset.range (m+1), i) * 2 : ℕ)) : ℝ) =
        (((m+1) * (m+1-1) : ℕ) : ℝ) := by
      rw [h]
    push_cast at h3
    push_cast
    linarith

theorem linSeries_length (a d : ℝ) (n : ℕ) : (linSeries a d n).length = n := by
  rw [linSeries, List.length_map, List.length_range]

theorem linSeries_getD {n i : ℕ} (h : i < n) (a d : ℝ) :
    (linSeries a d n).getD i 0 = a + d * i := by
  have hlen : i < (linSeries a d n).length := by
    rw [linSeries_length]; exact h
  rw [List.getD_eq_getElem _ _ hlen]
  simp [linSeries]

theorem linSeries_x_m {n : ℕ} (hn : n ≠ 0) (a d : ℝ) :
    x_m (linSeries a d n) = a + d * (t_m (linSeries a d n) - 1) := by
  have hnR : (n:ℝ) ≠ 0 := Nat.cast_ne_zero.mpr hn
  unfold x_m t_m
  rw [linSeries_length]
  have hsum : ∑ i ∈ Finset.range n, (linSeries a d n).getD i 0 =
      ∑ i ∈ Finset.range n, (a + d * (i:ℝ)) := by
    apply Finset.sum_congr rfl
    intro i hi
    exact linSeries_getD (Finset.mem_range.mp hi) a d
  rw [hsum, Finset.sum_add_distrib, Finset.sum_const, Finset.card_range, ← Finset.mul_sum,
    nsmul_eq_mul]
  have hS : (∑ i ∈ Finset.range n, (i:ℝ)) = (n:ℝ) * ((n:ℝ) - 1) / 2 := by
    linarith [sum_range_cast_real n]
  rw [hS, div_eq_iff hnR]
  ring

theorem linSeries_dev {n i : ℕ} (hn : n ≠ 0) (hi : i < n) (a d : ℝ) :
    (linSeries a d n).getD i 0 - x_m (linSeries a d n) =
      d * ((i:ℝ) + 1 - t_m (linSeries a d n)) := by
  rw [linSeries_getD hi a d, linSeries_x_m hn a d]
  ring

theorem linSeries_numr {n : ℕ} (hn : n ≠ 0) (a d : ℝ) :
    numr (linSeries a d n) = d * stt (linSeries a d n) := by
  unfold numr stt
  rw [linSeries_length, Finset.mul_sum]
  apply Finset.sum_congr rfl
  intro i hi
  rw [linSeries_dev hn (Finset.mem_range.mp hi) a d]
  ring

theorem linSeries_sxx {n : ℕ} (hn : n ≠ 0) (a d : ℝ) :
    sxx (linSeries a d n) = d ^ 2 * stt (linSeries a d n) := by
  unfold sxx stt
  rw [linSeries_length, Finset.mul_sum]
  apply Finset.sum_congr rfl
  intro i hi
  rw [linSeries_dev hn (Finset.mem_range.mp hi) a d]
  ring

theorem linSeries_stt_pos {n : ℕ} (hn : 2 ≤ n) (a d : ℝ) :
    0 < stt (linSeries a d n) := by
  unfold stt
  rw [linSeries_length]
  apply Finset.sum_pos' (fun i _ => sq_nonneg _)
  refine ⟨0, Finset.mem_range.mpr (by omega),
    lt_of_le_of_ne (sq_nonneg _) (Ne.symm (pow_ne_zero 2 ?_))⟩
  unfold t_m
  rw [linSeries_length]
  have h2 : (2:ℝ) ≤ (n:ℝ) := by exact_mod_cast hn
  intro hcontra
  push_cast at hcontra
  linarith

theorem linSeries_rho {n : ℕ} (hn : 2 ≤ n) {d : ℝ} (hd : d ≠ 0) (a : ℝ) :
    rho (linSeries a d n) = d / |d| := by
  have hn0 : n ≠ 0 := by omega
  have hstt := linSeries_stt_pos hn a d
  have hdeno : deno (linSeries a d n) = |d| * stt (linSeries a d n) := by
    rw [deno, linSeries_sxx hn0 a d,
      show d ^ 2 * stt (linSeries a d n) * stt (linSeries a d n) =
        (d * stt (linSeries a d n)) ^ 2 by ring,
      Real.sqrt_sq_eq_abs, abs_mul, abs_of_pos hstt]
  rw [rho, hdeno, linSeries_numr hn0 a d]
  have habs : |d| ≠ 0 := abs_ne_zero.mpr hd
  field_simp
  ring

/-- C3: with the default `alpha = 3`, every strictly increasing arithmetic series
of length at least 2 scores exactly `100`, and every strictly decreasing one
scores exactly `-100`. -/
theorem trend_score_linear (a d : ℝ) (n : ℕ) (hn : 2 ≤ n) :
    (0 < d → trend_score ((linSeries a d n).map some) 3 = .ok 100) ∧
    (d < 0 → trend_score ((linSeries a d n).map some) 3 = .ok (-100)) := by
  have hn0 : n ≠ 0 := by omega
  have hstt := linSeries_stt_pos hn a d
  constructor
  · intro hd
    have hrho : rho (linSeries a d n) = 1 := by
      rw [linSeries_rho hn (ne_of_gt hd) a, abs_of_pos hd, div_self (ne_of_gt hd)]
    have hdeno : deno (linSeries a d n) ≠ 0 := by
      intro hcontra
      rw [rho, hcontra, div_zero] at hrho
      norm_num at hrho
    have hnumr : numr (linSeries a d n) ≠ 0 := by
      rw [linSeries_numr hn0 a d]
      exact mul_ne_zero (ne_of_gt hd) (ne_of_gt hstt)
    have hval : trendValue (linSeries a d n) 3 = 100 := by
      rw [trendValue, hrho, Real.sign_one, abs_one, Real.one_rpow]
      norm_num
    unfold trend_score
    rw [filterNaN_map_some,
      trendCore_ok (by rw [linSeries_length]; exact hn0) hdeno
        (fun h => absurd h.1 hnumr), hval]
    rw [show (100:ℝ) = ((100:ℤ):ℝ) by norm_num, pyround_intCast]
  · intro hd
    have hrho : rho (linSeries a d n) = -1 := by
      rw [linSeries_rho hn (ne_of_lt hd) a, abs_of_neg hd, div_neg,
        div_self (ne_of_lt hd)]
    have hdeno : deno (linSeries a d n) ≠ 0 := by
      intro hcontra
      rw [rho, hcontra, div_zero] at hrho
      norm_num at hrho
    have hnumr : numr (linSeries a d n) ≠ 0 := by
      rw [linSeries_numr hn0 a d]
      exact mul_ne_zero (ne_of_lt hd) (ne_of_gt hstt)
    have hval : trendValue (linSeries a d n) 3 = -100 := by
      rw [trendValue, hrho,
        show (-1:ℝ) = -(1:ℝ) by norm_num, Real.sign_neg, Real.sign_one,
        abs_neg, abs_one, Real.one_rpow]
      norm_num
    unfold trend_score
    rw [filterNaN_map_some,
      trendCore_ok (by rw [linSeries_length]; exact hn0) hdeno
        (fun h => absurd h.1 hnumr), hval]
    rw [show (-100:ℝ) = ((-100:ℤ):ℝ) by norm_num, pyround_intCast]

/-- Witness for C3: the length-2 series `[0, 1]` (slope `1`) scores `100`, and
`[0, -1]` (slope `-1`) scores `-100`. -/
theorem trend_score_linear_witness :
    trend_score ((linSeries 0 1 2).map some) 3 = .ok 100 ∧
    trend_score ((linSeries 0 (-1) 2).map some) 3 = .ok (-100) :=
  ⟨(trend_score_linear 0 1 2 (by norm_num)).1 (by norm_num),
   (trend_score_linear 0 (-1) 2 (by norm_num)).2 (by norm_num)⟩

/-! ### C6: the documented example series for the trend score -/

/-- C6: `trend_score([1,3,2,4,3,5])` is `57` at the default `alpha = 3`, and `83`
at `alpha = 1`. -/
theorem trend_score_documented_example :
    trend_score [some 1, some 3, some 2, some 4, some 3, some 5] 3 = .ok 57 ∧
    trend_score [some 1, some 3, some 2, some 4, some 3, some 5] 1 = .ok 83 := by
  have hfil : filterNaN [some 1, some 3, some 2, some 4, some 3, some 5] =
      [1, 3, 2, 4, 3, 5] := by simp [filterNaN]
  have hxm : x_m [1, 3, 2, 4, 3, 5] = 3 := by
    norm_num [x_m, Finset.sum_range_succ, List.getD]
  have hnumr : numr [1, 3, 2, 4, 3, 5] = 11 := by
    norm_num [numr, hxm, t_m, Finset.sum_range_succ, List.getD]
  have hsxx : sxx [1, 3, 2, 4, 3, 5] = 10 := by
    norm_num [sxx, hxm, Finset.sum_range_succ, List.getD]
  have hstt : stt [1, 3, 2, 4, 3, 5] = 35/2 := by
    norm_num [stt, t_m, Finset.sum_range_succ, List.getD]
  have hdeno : deno [1, 3, 2, 4, 3, 5] = Real.sqrt 175 := by
    rw [deno, hsxx, hstt]
    norm_num
  have hspos : 0 < Real.sqrt 175 := Real.sqrt_pos.mpr (by norm_num)
  have hslb : (10648/805 : ℝ) < Real.sqrt 175 := Real.lt_sqrt_of_sq_lt (by norm_num)
  have hsub : Real.sqrt 175 < (40/3 : ℝ) := by
    rw [Real.sqrt_lt' (by norm_num)]
    norm_num
  have hrho : rho [1, 3, 2, 4, 3, 5] = 11 / Real.sqrt 175 := by
    rw [rho, hnumr, hdeno]
  have hrpos : 0 < 11 / Real.sqrt 175 := by positivity
  have hdne : deno [1, 3, 2, 4, 3, 5] ≠ 0 := by
    rw [hdeno]
    exact ne_of_gt hspos
  have hnne : ∀ alpha : ℝ, ¬(numr [1, 3, 2, 4, 3, 5] = 0 ∧ alpha < 0) := by
    intro alpha h
    rw [hnumr] at h
    norm_num at h
  constructor
  · have hval : trendValue [1, 3, 2, 4, 3, 5] 3 =
        100 * (11 / Real.sqrt 175) ^ (3:ℕ) := by
      rw [trendValue, hrho, Real.sign_of_pos hrpos, abs_of_pos hrpos,
        show (3:ℝ) = ((3:ℕ):ℝ) by norm_num, Real.rpow_natCast]
      ring
    have hcube : (Real.sqrt 175) ^ (3:ℕ) = 175 * Real.sqrt 175 := by
      rw [pow_succ, Real.sq_sqrt (by norm_num : (0:ℝ) ≤ 175)]
    have hv2 : trendValue [1, 3, 2, 4, 3, 5] 3 = 133100 / (175 * Real.sqrt 175) := by
      rw [hval, div_pow, hcube]
      ring
    have hround : pyround (trendValue [1, 3, 2, 4, 3, 5] 3) = 57 := by
      rw [hv2]
      apply pyround_eq_of_lt_of_lt
      · push_cast
        rw [lt_div_iff₀ (by positivity)]
        nlinarith
      · push_cast
        rw [div_lt_iff₀ (by positivity)]
        nlinarith
    unfold trend_score
    rw [hfil, trendCore_ok (by norm_num) hdne (hnne 3), hround]
  · have hval : trendValue [1, 3, 2, 4, 3, 5] 1 = 1100 / Real.sqrt 175 := by
      rw [trendValue, hrho, Real.sign_of_pos hrpos, abs_of_pos hrpos, Real.rpow_one]
      ring
    have hround : pyround (trendValue [1, 3, 2, 4, 3, 5] 1) = 83 := by
      rw [hval]
      apply pyround_eq_of_lt_of_lt
      · push_cast
        rw [lt_div_iff₀ hspos]
        nlinarith
      · push_cast
        rw [div_lt_iff₀ hspos]
        nlinarith
    unfold trend_score
    rw [hfil, trendCore_ok (by norm_num) hdne (hnne 1), hround]

/-! ### C7: the documented example series for the mean-reversion score -/

/-- C7: `mean_rev_score([-1,1,-1,1,-1])` is `46` at the default `beta = 15`,
computed as `round(100 * 2**(-beta*x_s/qv))` with `qv = 16` (sum of squared
first differences) and `x_s = 6/5` (Bessel-corrected sample variance). -/
theorem mean_rev_score_documented_example :
    mean_rev_score [some (-1), some 1, some (-1), some 1, some (-1)] 15 = .ok 46 ∧
    qv [-1, 1, -1, 1, -1] = 16 ∧ x_s [-1, 1, -1, 1, -1] = 6/5 := by
  have hfil : filterNaN [some (-1), some 1, some (-1), some 1, some (-1)] =
      [-1, 1, -1, 1, -1] := by simp [filterNaN]
  have hxm : x_m [-1, 1, -1, 1, -1] = -1/5 := by
    norm_num [x_m, Finset.sum_range_succ, List.getD]
  have hsxx : sxx [-1, 1, -1, 1, -1] = 24/5 := by
    norm_num [sxx, hxm, Finset.sum_range_succ, List.getD]
  have hqv : qv [-1, 1, -1, 1, -1] = 16 := by
    norm_num [qv, Finset.sum_Ico_eq_sum_range, Finset.sum_range_succ, List.getD]
  have hxs : x_s [-1, 1, -1, 1, -1] = 6/5 := by
    rw [x_s, hsxx]
    norm_num
  have ht0 : (0:ℝ) < (2:ℝ) ^ ((9:ℝ)/8) := Real.rpow_pos_of_pos (by norm_num) _
  have ht8 : ((2:ℝ) ^ ((9:ℝ)/8)) ^ (8:ℕ) = 512 := by
    rw [← Real.rpow_natCast ((2:ℝ) ^ ((9:ℝ)/8)) 8, ← Real.rpow_mul (by norm_num)]
    rw [show (9:ℝ)/8 * ((8:ℕ):ℝ) = ((9:ℕ):ℝ) by push_cast; ring, Real.rpow_natCast]
    norm_num
  have htlb : (200:ℝ)/93 < (2:ℝ) ^ ((9:ℝ)/8) := by
    apply lt_of_pow_lt_pow_left₀ 8 (le_of_lt ht0)
    rw [ht8]
    norm_num
  have htub : (2:ℝ) ^ ((9:ℝ)/8) < (200:ℝ)/91 := by
    apply lt_of_pow_lt_pow_left₀ 8 (by norm_num)
    rw [ht8]
    norm_num
  have hval : meanRevValue [-1, 1, -1, 1, -1] 15 = 100 * ((2:ℝ) ^ ((9:ℝ)/8))⁻¹ := by
    rw [meanRevValue, hxs, hqv,
      show -(15:ℝ) * (6/5) / 16 = -((9:ℝ)/8) by norm_num,
      Real.rpow_neg (by norm_num)]
  have hround : pyround (meanRevValue [-1, 1, -1, 1, -1] 15) = 46 := by
    rw [hval, show (100:ℝ) * ((2:ℝ) ^ ((9:ℝ)/8))⁻¹ = 100 / (2:ℝ) ^ ((9:ℝ)/8) from
      (div_eq_mul_inv 100 _).symm]
    apply pyround_eq_of_lt_of_lt
    · push_cast
      rw [lt_div_iff₀ ht0]
      linarith
    · push_cast
      rw [div_lt_iff₀ ht0]
      linarith
  refine ⟨?_, hqv, hxs⟩
  unfold mean_rev_score
  rw [hfil, meanRevCore_ok 15 (by norm_num) (by norm_num) (by rw [hqv]; norm_num), hround]

/-! ### C5: which tie-breaking rule the code's rounding uses -/

/-- Shared evaluation: on `[0, 2, 1]` (with `beta = 15`) the real value being
rounded is exactly `12.5`, and the code returns `12` (banker's rounding). -/
theorem mean_rev_021_eval :
    meanRevValue [0, 2, 1] 15 = 25/2 ∧
    mean_rev_score [some 0, some 2, some 1] 15 = .ok 12 := by
  have hfil : filterNaN [some 0, some 2, some 1] = [0, 2, 1] := by simp [filterNaN]
  have hxm : x_m [0, 2, 1] = 1 := by
    norm_num [x_m, Finset.sum_range_succ, List.getD]
  have hsxx : sxx [0, 2, 1] = 2 := by
    norm_num [sxx, hxm, Finset.sum_range_succ, List.getD]
  have hqv : qv [0, 2, 1] = 5 := by
    norm_num [qv, Finset.sum_Ico_eq_sum_range, Finset.sum_range_succ, List.getD]
  have hxs : x_s [0, 2, 1] = 1 := by
    rw [x_s, hsxx]
    norm_num
  have hval : meanRevValue [0, 2, 1] 15 = 25/2 := by
    rw [meanRevValue, hxs, hqv, show -(15:ℝ) * 1 / 5 = -((3:ℕ):ℝ) by norm_num,
      Real.rpow_neg (by norm_num), Real.rpow_natCast]
    norm_num
  have hfloor : ⌊(25/2 : ℝ)⌋ = 12 := by
    apply Int.floor_eq_iff.mpr
    constructor <;> norm_num
  have hround : pyround (25/2 : ℝ) = 12 := by
    unfold pyround
    rw [hfloor, if_neg (by push_cast; norm_num), if_neg (by push_cast; norm_num),
      if_pos (by decide)]
  refine ⟨hval, ?_⟩
  unfold mean_rev_score
  rw [hfil, meanRevCore_ok 15 (by norm_num) (by norm_num) (by rw [hqv]; norm_num), hval,
    hround]

/-- C5 counterexample: on `[0, 2, 1]` the exact value being rounded is `12.5`;
rounding half away from zero would give `13`, but the code (Python's banker's
rounding) returns `12` — so the claimed tie rule is not the one the code uses. -/
theorem rounding_not_half_away_from_zero :
    mean_rev_score [some 0, some 2, some 1] 15 = .ok 12 ∧
    meanRevValue [0, 2, 1] 15 = 25/2 ∧
    roundHalfAwayFromZero (25/2) = 13 ∧ (12 : ℤ) ≠ 13 := by
  refine ⟨mean_rev_021_eval.2, mean_rev_021_eval.1, ?_, by decide⟩
  unfold roundHalfAwayFromZero
  rw [if_pos (by norm_num), show (25/2 + 1/2 : ℝ) = ((13:ℤ):ℝ) by norm_num,
    Int.floor_intCast]

/-- C5 (amended): in both functions the real-valued formula is rounded to the
nearest integer, but an exact `.5` tie is rounded half to even (Python's
built-in `round`), not half away from zero. -/
theorem scores_round_to_nearest_ties_even (x : List (Option ℝ)) (alpha beta : ℝ) :
    (∀ z : ℤ, trend_score x alpha = .ok z →
      |trendValue (filterNaN x) alpha - z| ≤ 1/2 ∧
      (|trendValue (filterNaN x) alpha - z| = 1/2 → Even z)) ∧
    (∀ z : ℤ, mean_rev_score x beta = .ok z →
      |meanRevValue (filterNaN x) beta - z| ≤ 1/2 ∧
      (|meanRevValue (filterNaN x) beta - z| = 1/2 → Even z)) := by
  constructor
  · intro z hz
    unfold trend_score trendCore at hz
    split_ifs at hz
    simp only [Except.ok.injEq] at hz
    subst hz
    exact ⟨abs_sub_pyround_le _, fun h => pyround_tie_even h⟩
  · intro z hz
    unfold mean_rev_score meanRevCore at hz
    split_ifs at hz
    simp only [Except.ok.injEq] at hz
    subst hz
    exact ⟨abs_sub_pyround_le _, fun h => pyround_tie_even h⟩

/-- Witness for the amended C5 at `[0, 2, 1]`: the returned score `12` is within
half of the exact value `12.5`, and the tie indeed lands on the even integer. -/
theorem scores_round_to_nearest_ties_even_witness :
    |meanRevValue (filterNaN [some 0, some 2, some 1]) 15 - ((12:ℤ) : ℝ)| ≤ 1/2 ∧
    (|meanRevValue (filterNaN [some 0, some 2, some 1]) 15 - ((12:ℤ) : ℝ)| = 1/2 →
      Even (12:ℤ)) :=
  (scores_round_to_nearest_ties_even [some 0, some 2, some 1] 3 15).2 12
    mean_rev_021_eval.2

/-! ### C8: a larger sharpening exponent compresses the score -/

/-- C8: whenever `0 < |rho| < 1`, the magnitude of the trend score at `alpha = 1`
is at least the magnitude at `alpha = 3` (both calls succeed). -/
theorem alpha_three_compresses_more (x : List (Option ℝ))
    (h0 : 0 < |rho (filterNaN x)|) (h1 : |rho (filterNaN x)| < 1) :
    ∃ z1 z3 : ℤ, trend_score x 1 = .ok z1 ∧ trend_score x 3 = .ok z3 ∧ |z3| ≤ |z1| := by
  set y := filterNaN x with hy
  have hrne : rho y ≠ 0 := by
    intro h
    rw [h] at h0
    simp at h0
  have hd : deno y ≠ 0 := by
    intro h
    apply hrne
    rw [rho, h, div_zero]
  have hnumr : numr y ≠ 0 := by
    intro h
    apply hrne
    rw [rho, h, zero_div]
  have hlen : y.length ≠ 0 := by
    intro h
    apply hd
    have hsxx0 : sxx y = 0 := by
      unfold sxx
      rw [h]
      simp
    rw [deno, hsxx0, zero_mul, Real.sqrt_zero]
  have hm0 : 0 ≤ |rho y| := abs_nonneg _
  have hnn : ∀ alpha : ℝ, (0:ℤ) ≤ pyround (100 * |rho y| ^ alpha) := by
    intro alpha
    apply le_pyround
    push_cast
    positivity
  have key : ∀ alpha : ℝ, trendCore y alpha = .ok (pyround (trendValue y alpha)) ∧
      |pyround (trendValue y alpha)| = pyround (100 * |rho y| ^ alpha) := by
    intro alpha
    refine ⟨trendCore_ok hlen hd (fun h => absurd h.1 hnumr), ?_⟩
    rcases Real.sign_apply_eq_of_ne_zero (rho y) hrne with hs | hs
    · rw [trendValue, hs,
        show (100:ℝ) * (-1) * |rho y| ^ alpha = -(100 * |rho y| ^ alpha) by ring,
        pyround_neg, abs_neg, abs_of_nonneg (hnn alpha)]
    · rw [trendValue, hs,
        show (100:ℝ) * 1 * |rho y| ^ alpha = 100 * |rho y| ^ alpha by ring,
        abs_of_nonneg (hnn alpha)]
  have hmono : pyround (100 * |rho y| ^ (3:ℝ)) ≤ pyround (100 * |rho y| ^ (1:ℝ)) := by
    apply pyround_mono
    have := Real.rpow_le_rpow_of_exponent_ge (lt_of_le_of_ne hm0 (by
      intro h
      rw [← h] at h0
      simp at h0)) (le_of_lt h1) (show (1:ℝ) ≤ 3 by norm_num)
    linarith
  exact ⟨pyround (trendValue y 1), pyround (trendValue y 3), (key 1).1, (key 3).1, by
    rw [(key 1).2, (key 3).2]
    exact hmono⟩

/-- Witness for C8 at `[1, 2, 2]`, whose correlation `rho = 1/sqrt(4/3)` lies
strictly between 0 and 1. -/
theorem alpha_three_compresses_more_witness :
    ∃ z1 z3 : ℤ, trend_score [some 1, some 2, some 2] 1 = .ok z1 ∧
      trend_score [some 1, some 2, some 2] 3 = .ok z3 ∧ |z3| ≤ |z1| := by
  have hfil : filterNaN [some 1, some 2, some 2] = [1, 2, 2] := by simp [filterNaN]
  have hxm : x_m [1, 2, 2] = 5/3 := by
    norm_num [x_m, Finset.sum_range_succ, List.getD]
  have hnumr : numr [1, 2, 2] = 1 := by
    norm_num [numr, hxm, t_m, Finset.sum_range_succ, List.getD]
  have hsxx : sxx [1, 2, 2] = 2/3 := by
    norm_num [sxx, hxm, Finset.sum_range_succ, List.getD]
  have hstt : stt [1, 2, 2] = 2 := by
    norm_num [stt, t_m, Finset.sum_range_succ, List.getD]
  have hdeno : deno [1, 2, 2] = Real.sqrt (4/3) := by
    rw [deno, hsxx, hstt]
    norm_num
  have hsgt1 : (1:ℝ) < Real.sqrt (4/3) := by
    rw [show (1:ℝ) = Real.sqrt 1 from (Real.sqrt_one).symm]
    exact Real.sqrt_lt_sqrt (by norm_num) (by norm_num)
  have hrho : rho [1, 2, 2] = 1 / Real.sqrt (4/3) := by
    rw [rho, hnumr, hdeno]
  have hrpos : 0 < rho [1, 2, 2] := by
    rw [hrho]
    positivity
  apply alpha_three_compresses_more
  · rw [hfil, abs_of_pos hrpos]
    exact hrpos
  · rw [hfil, abs_of_pos hrpos, hrho, div_lt_one (by positivity)]
    exact hsgt1

/-! ### C9: reversal antisymmetry of the trend score -/

theorem getD_reverse {y : List ℝ} {i : ℕ} (h : i < y.length) :
    y.reverse.getD i 0 = y.getD (y.length - 1 - i) 0 := by
  have h1 : i < y.reverse.length := by rw [List.length_reverse]; exact h
  rw [List.getD_eq_getElem _ _ h1, List.getD_eq_getElem _ _ (by omega)]
  rw [List.getElem_reverse]

theorem x_m_reverse (y : List ℝ) : x_m y.reverse = x_m y := by
  unfold x_m
  rw [List.length_reverse]
  congr 1
  rw [← Finset.sum_range_reflect (fun i => y.getD i 0) y.length]
  apply Finset.sum_congr rfl
  intro i hi
  exact getD_reverse (Finset.mem_range.mp hi)

theorem t_m_reverse (y : List ℝ) : t_m y.reverse = t_m y := by
  unfold t_m
  rw [List.length_reverse]

theorem stt_reverse (y : List ℝ) : stt y.reverse = stt y := by
  unfold stt
  rw [List.length_reverse, t_m_reverse]

theorem sxx_reverse (y : List ℝ) : sxx y.reverse = sxx y := by
  unfold sxx
  rw [List.length_reverse, x_m_reverse]
  rw [← Finset.sum_range_reflect (fun i => (y.getD i 0 - x_m y) ^ 2) y.length]
  apply Finset.sum_congr rfl
  intro i hi
  rw [getD_reverse (Finset.mem_range.mp hi)]

theorem numr_reverse (y : List ℝ) : numr y.reverse = -numr y := by
  unfold numr
  rw [List.length_reverse, x_m_reverse, t_m_reverse, ← Finset.sum_neg_distrib,
    ← Finset.sum_range_reflect
      (fun i => -((y.getD i 0 - x_m y) * ((i:ℝ) + 1 - t_m y))) y.length]
  apply Finset.sum_congr rfl
  intro i hi
  have hi' : i < y.length := Finset.mem_range.mp hi
  rw [getD_reverse hi']
  have h1n : 1 ≤ y.length := by omega
  have hin : i ≤ y.length - 1 := by omega
  have hc : ((y.length - 1 - i : ℕ) : ℝ) = (y.length : ℝ) - 1 - (i : ℝ) := by
    rw [Nat.cast_sub hin, Nat.cast_sub h1n]
    push_cast
    ring
  rw [hc]
  unfold t_m
  ring

theorem deno_reverse (y : List ℝ) : deno y.reverse = deno y := by
  rw [deno, deno, sxx_reverse, stt_reverse]

theorem rho_reverse (y : List ℝ) : rho y.reverse = -rho y := by
  rw [rho, rho, numr_reverse, deno_reverse, neg_div]

theorem trendValue_reverse (y : List ℝ) (alpha : ℝ) :
    trendValue y.reverse alpha = -trendValue y alpha := by
  rw [trendValue, trendValue, rho_reverse, Real.sign_neg, abs_neg]
  ring

theorem trendCore_reverse (y : List ℝ) (alpha : ℝ) :
    trendCore y.reverse alpha = (trendCore y alpha).map (fun z => -z) := by
  unfold trendCore
  rw [List.length_reverse, deno_reverse, numr_reverse, trendValue_reverse, pyround_neg]
  by_cases h1 : y.length = 0
  · rw [if_pos h1, if_pos h1]
    rfl
  · rw [if_neg h1, if_neg h1]
    by_cases h2 : deno y = 0
    · rw [if_pos h2, if_pos h2]
      rfl
    · rw [if_neg h2, if_neg h2]
      by_cases h3 : numr y = 0 ∧ alpha < 0
      · rw [if_pos (show -numr y = 0 ∧ alpha < 0 from ⟨by rw [h3.1, neg_zero], h3.2⟩),
          if_pos h3]
        rfl
      · rw [if_neg (fun hc => h3 ⟨neg_eq_zero.mp hc.1, hc.2⟩), if_neg h3]
        rfl

/-- C9: for a NaN-free series of length at least 2 with non-constant values and
any `alpha`, `trend_score` on the reversed series returns exactly the negation of
`trend_score` on the series (errors correspond to errors).  The hypotheses of
the claim are stated but the equality in fact holds for every list. -/
theorem trend_reversal_antisymmetry (y : List ℝ) (alpha : ℝ) (_hlen : 2 ≤ y.length)
    (_hnc : ∃ a ∈ y, ∃ b ∈ y, a ≠ b) :
    trendCore y.reverse alpha = (trendCore y alpha).map (fun z => -z) ∧
    ∀ z : ℤ, trendCore y alpha = .ok z → trendCore y.reverse alpha = .ok (-z) := by
  refine ⟨trendCore_reverse y alpha, ?_⟩
  intro z hz
  rw [trendCore_reverse y alpha, hz]
  rfl

/-- Witness for C9 at the non-constant series `[1, 2, 4]` with `alpha = 3`. -/
theorem trend_reversal_antisymmetry_witness :
    trendCore ([1, 2, 4] : List ℝ).reverse 3 =
      (trendCore [1, 2, 4] 3).map (fun z => -z) :=
  (trend_reversal_antisymmetry [1, 2, 4] 3 (by norm_num)
    ⟨1, by norm_num, 2, by norm_num, by norm_num⟩).1

/-! ### C10: affine invariance of the mean-reversion score -/

theorem getD_map_affine {y : List ℝ} {i : ℕ} (h : i < y.length) (f : ℝ → ℝ) :
    (y.map f).getD i 0 = f (y.getD i 0) := by
  rw [List.getD_eq_getElem _ _ (by rw [List.length_map]; exact h),
    List.getD_eq_getElem _ _ h, List.getElem_map]

theorem x_m_map_affine {y : List ℝ} (hlen : y.length ≠ 0) (a b : ℝ) :
    x_m (y.map (fun v => a * v + b)) = a * x_m y + b := by
  have hn : ((y.length : ℕ) : ℝ) ≠ 0 := Nat.cast_ne_zero.mpr hlen
  unfold x_m
  rw [List.length_map]
  have hsum : ∑ i ∈ Finset.range y.length, (y.map (fun v => a * v + b)).getD i 0 =
      a * (∑ i ∈ Finset.range y.length, y.getD i 0) + y.length * b := by
    rw [Finset.mul_sum]
    rw [show (y.length : ℝ) * b = ∑ _i ∈ Finset.range y.length, b by
      rw [Finset.sum_const, Finset.card_range, nsmul_eq_mul]]
    rw [← Finset.sum_add_distrib]
    apply Finset.sum_congr rfl
    intro i hi
    rw [getD_map_affine (Finset.mem_range.mp hi)]
  rw [hsum]
  field_simp
  ring

theorem qv_map_affine (y : List ℝ) (a b : ℝ) :
    qv (y.map (fun v => a * v + b)) = a ^ 2 * qv y := by
  unfold qv
  rw [List.length_map, Finset.mul_sum]
  apply Finset.sum_congr rfl
  intro i hi
  have hmem := Finset.mem_Ico.mp hi
  rw [getD_map_affine (by omega), getD_map_affine (by omega)]
  ring

theorem sxx_map_affine {y : List ℝ} (hlen : y.length ≠ 0) (a b : ℝ) :
    sxx (y.map (fun v => a * v + b)) = a ^ 2 * sxx y := by
  unfold sxx
  rw [List.length_map, x_m_map_affine hlen a b, Finset.mul_sum]
  apply Finset.sum_congr rfl
  intro i hi
  rw [getD_map_affine (Finset.mem_range.mp hi)]
  ring

/-- C10: for a NaN-free series of length at least 2 with `qv > 0` and any affine
transform `v ↦ a*v + b` with `a ≠ 0`, the mean-reversion score is unchanged:
`qv` and the sample variance both scale by `a^2`, so the exponent is unchanged. -/
theorem mean_rev_affine_invariance (y : List ℝ) (a b beta : ℝ) (hlen : 2 ≤ y.length)
    (hqv : 0 < qv y) (ha : a ≠ 0) :
    meanRevCore (y.map (fun v => a * v + b)) beta = meanRevCore y beta := by
  have hlen0 : y.length ≠ 0 := by omega
  have hlen1 : y.length ≠ 1 := by omega
  have ha2 : a ^ 2 ≠ 0 := pow_ne_zero 2 ha
  have hqvne : qv y ≠ 0 := ne_of_gt hqv
  have hxs : x_s (y.map (fun v => a * v + b)) = a ^ 2 * x_s y := by
    unfold x_s
    rw [List.length_map, sxx_map_affine hlen0 a b, mul_div_assoc]
  have hval : meanRevValue (y.map (fun v => a * v + b)) beta = meanRevValue y beta := by
    unfold meanRevValue
    rw [qv_map_affine y a b, hxs,
      show -beta * (a ^ 2 * x_s y) / (a ^ 2 * qv y) = -beta * x_s y / qv y by
        rw [show -beta * (a ^ 2 * x_s y) = a ^ 2 * (-beta * x_s y) by ring,
          mul_div_mul_left _ _ ha2]]
  rw [meanRevCore_ok beta (by rw [List.length_map]; exact hlen0)
      (by rw [List.length_map]; exact hlen1)
      (by rw [qv_map_affine y a b]; exact mul_ne_zero ha2 hqvne),
    meanRevCore_ok beta hlen0 hlen1 hqvne, hval]

/-- Witness for C10: rescaling `[0, 1]` to `[3, 5]` (`a = 2`, `b = 3`) leaves the
mean-reversion score unchanged. -/
theorem mean_rev_affine_invariance_witness :
    meanRevCore (([0, 1] : List ℝ).map (fun v => 2 * v + 3)) 15 =
      meanRevCore [0, 1] 15 :=
  mean_rev_affine_invariance [0, 1] 2 3 15 (by norm_num)
    (by norm_num [qv, Finset.sum_Ico_eq_sum_range, Finset.sum_range_succ, List.getD])
    (by norm_num)
